import Mathlib

/-!
Shallow embedding of the AutoLawyer-DocuIntel retrieval/generation core
(`nextjs-app/lib/services/langchain-rag.ts`) and of the SSE streaming route
(`nextjs-app/app/api/ai/stream/route.ts`), together with theorems checking
the natural-language specification of the repository against this embedding.

Modelling conventions:

* JavaScript strings are `List Char`.
* JavaScript numbers are modelled as `Option ℝ`: `some x` is the finite
  number `x` and `none` is `NaN`.  In every code path modelled here a zero
  divisor comes with a zero dividend (`0 / 0` is `NaN` in JavaScript), so
  division by zero is mapped to `none` and infinities never arise.
* External provider calls (`openai.embeddings.create`,
  `openai.chat.completions.create`) are modelled by explicit outcome
  parameters: the surrounding `try`/`catch` structure of the source is kept,
  with the outcome of the call supplied as an argument.
-/

namespace DocuIntel

/-- JavaScript strings, modelled as lists of characters. -/
abbrev Str := List Char

/-- JavaScript numbers: `some x` is a finite value, `none` is `NaN`. -/
abbrev JSNum := Option ℝ

/-- JavaScript `+` on numbers; `NaN` propagates. -/
def jsAdd : JSNum → JSNum → JSNum
  | some a, some b => some (a + b)
  | _, _ => none

/-- JavaScript `*` on numbers; `NaN` propagates. -/
def jsMul : JSNum → JSNum → JSNum
  | some a, some b => some (a * b)
  | _, _ => none

/-- JavaScript `/` as it occurs in this code base: whenever the divisor is
`0` the dividend is also `0`, and `0 / 0` evaluates to `NaN`, so a zero
divisor yields `none`. -/
noncomputable def jsDiv : JSNum → JSNum → JSNum
  | some a, some b => if b = 0 then none else some (a / b)
  | _, _ => none

/-- JavaScript `x < y`: every comparison involving `NaN` is false. -/
noncomputable def jsLtB : JSNum → JSNum → Bool
  | some a, some b => decide (a < b)
  | _, _ => false

/-- JavaScript `x >= m` against a finite threshold: false when `x` is `NaN`. -/
noncomputable def jsGeB : JSNum → ℝ → Bool
  | some a, m => decide (m ≤ a)
  | none, _ => false

/-- The `dotProduct` accumulator of `InMemoryVectorStore.cosineSimilarity`:
`Σ a[i]*b[i]` over the common indices. -/
def dotProd (a b : List ℝ) : ℝ := ((a.zip b).map (fun p => p.1 * p.2)).sum

/-- The `normA`/`normB` accumulators: `Σ v[i]*v[i]`. -/
def sumSq (v : List ℝ) : ℝ := (v.map (fun x => x * x)).sum

/-- `InMemoryVectorStore.cosineSimilarity`: returns `0` when the two vectors
have different lengths, and otherwise
`dotProduct / (Math.sqrt normA * Math.sqrt normB)` with JavaScript division
(a zero denominator therefore produces `NaN`, i.e. `none`). -/
noncomputable def cosineSimilarity (a b : List ℝ) : JSNum :=
  if a.length ≠ b.length then some 0
  else jsDiv (some (dotProd a b))
    (some (Real.sqrt (sumSq a) * Real.sqrt (sumSq b)))

theorem sumSq_nonneg (v : List ℝ) : 0 ≤ sumSq v := by
  unfold sumSq
  induction v with
  | nil => simp
  | cons x xs ih =>
      simp only [List.map_cons, List.sum_cons]
      have : 0 ≤ x * x := mul_self_nonneg x
      linarith

/-- **C3** (corrected).  The spec says a zero-magnitude vector makes the
similarity "undefined (treat as 0)".  In fact the code has no zero-magnitude
guard: for equal-length vectors with a zero-magnitude side, the JavaScript
expression evaluates `0 / 0 = NaN`; the function returns `0` only when the
two vectors have different lengths. -/
theorem cosineSimilarity_zero_magnitude (a b : List ℝ) :
    (a.length = b.length → sumSq a = 0 ∨ sumSq b = 0 →
      cosineSimilarity a b = none) ∧
    (a.length ≠ b.length → cosineSimilarity a b = some 0) := by
  constructor
  · intro hlen hz
    have hden : Real.sqrt (sumSq a) * Real.sqrt (sumSq b) = 0 := by
      rcases hz with h | h
      · rw [h, Real.sqrt_zero, zero_mul]
      · rw [h, Real.sqrt_zero, mul_zero]
    simp [cosineSimilarity, hlen, jsDiv, hden]
  · intro hlen
    simp [cosineSimilarity, hlen]

/-- Witness for `cosineSimilarity_zero_magnitude` at concrete inputs. -/
theorem cosineSimilarity_zero_magnitude_witness :
    cosineSimilarity [(0 : ℝ)] [(0 : ℝ)] = none ∧
    cosineSimilarity [(1 : ℝ)] [] = some 0 := by
  refine ⟨(cosineSimilarity_zero_magnitude [(0 : ℝ)] [(0 : ℝ)]).1 rfl ?_,
    (cosineSimilarity_zero_magnitude [(1 : ℝ)] []).2 (by simp)⟩
  left
  simp [sumSq]

/-- **C3**, counterexample to the claim as stated: on the equal-length
zero-magnitude pair `[0]`, `[0]` the function does not return `0` — it
returns `NaN`. -/
theorem cosineSimilarity_zero_magnitude_counterexample :
    cosineSimilarity [(0 : ℝ)] [(0 : ℝ)] ≠ some 0 := by
  have : cosineSimilarity [(0 : ℝ)] [(0 : ℝ)] = none := by
    simp [cosineSimilarity, jsDiv, sumSq, dotProd]
  simp [this]

/-- Metadata of a `DocumentChunk` (`metadata` field in the source). -/
structure ChunkMeta where
  source : Str
  charStart : ℕ
  charEnd : ℕ
  heading : Str
  clauseType : Option Str
deriving Repr, DecidableEq

/-- A `DocumentChunk` (the `embedding` field lives on the store entry). -/
structure Chunk where
  id : Str
  content : Str
  meta : ChunkMeta
deriving Repr, DecidableEq

/-- A `RetrievalResult`: a chunk together with its similarity score. -/
structure RResult where
  chunk : Chunk
  score : JSNum

/-- One `InMemoryVectorStore` entry: a stored chunk with its embedding,
listed in `Map` insertion order. -/
structure StoreEntry where
  chunk : Chunk
  embedding : List ℝ

/-- `a` may stay before `b` under the comparator
`(a, b) => b.score - a.score`: the comparator does not rank `b` strictly
before `a` (`NaN` comparator results count as ties per `SortCompare`). -/
def noAscent (a b : RResult) : Prop := jsLtB a.score b.score = false

/-- One step of the stable sort: insert `x` after every element the
JavaScript comparator considers tied with or before `x`, and before the
first element ranked strictly after `x`. -/
noncomputable def sortInsert (x : RResult) : List RResult → List RResult
  | [] => [x]
  | y :: ys => if jsLtB y.score x.score then x :: y :: ys else y :: sortInsert x ys

/-- `Array.prototype.sort((a, b) => b.score - a.score)`: ECMAScript requires
a stable sort; we model it as a stable insertion sort, inserting each
element in array order into the sorted prefix. -/
noncomputable def sortByScoreDesc (l : List RResult) : List RResult :=
  l.foldl (fun acc x => sortInsert x acc) []

theorem jsLtB_true_iff {a b : JSNum} :
    jsLtB a b = true ↔ ∃ x y, a = some x ∧ b = some y ∧ x < y := by
  cases a <;> cases b <;> simp [jsLtB]

theorem jsLtB_eq_false_iff {a b : JSNum} :
    jsLtB a b = false ↔ ∀ x y, a = some x → b = some y → ¬ x < y := by
  cases a <;> cases b <;> simp [jsLtB]

theorem mem_sortInsert (w x : RResult) (l : List RResult) :
    w ∈ sortInsert x l ↔ w = x ∨ w ∈ l := by
  induction l with
  | nil => simp [sortInsert]
  | cons y ys ih =>
      by_cases h : jsLtB y.score x.score
      · simp only [sortInsert, if_pos h, List.mem_cons]
      · simp only [sortInsert, if_neg h, List.mem_cons, ih]
        tauto

theorem sortInsert_perm (x : RResult) (l : List RResult) :
    (sortInsert x l).Perm (x :: l) := by
  induction l with
  | nil => simp [sortInsert]
  | cons y ys ih =>
      by_cases h : jsLtB y.score x.score
      · simp [sortInsert, h]
      · simp only [sortInsert, if_neg h]
        exact (ih.cons y).trans (List.Perm.swap x y ys)

theorem jsLtB_false_of_lt {sy sx sz : ℝ} (h1 : sy < sx)
    (h2 : jsLtB (some sy) (some sz) = false) :
    jsLtB (some sx) (some sz) = false := by
  simp only [jsLtB, decide_eq_false_iff_not] at h2 ⊢
  intro hlt
  exact h2 (lt_trans h1 hlt)

theorem sortInsert_pairwise (x : RResult) (l : List RResult)
    (hl : l.Pairwise noAscent) : (sortInsert x l).Pairwise noAscent := by
  induction l with
  | nil => simp [sortInsert, List.Pairwise, noAscent, jsLtB]
  | cons y ys ih =>
      rcases List.pairwise_cons.mp hl with ⟨hy, hys⟩
      by_cases h : jsLtB y.score x.score
      · simp only [sortInsert, if_pos h]
        refine List.pairwise_cons.mpr ⟨?_, hl⟩
        obtain ⟨sy, sx, hsy, hsx, hxy⟩ := jsLtB_true_iff.mp h
        intro z hz
        rcases List.mem_cons.mp hz with rfl | hz
        · show jsLtB x.score z.score = false
          rw [hsx, hsy]
          simp only [jsLtB, decide_eq_false_iff_not]
          exact not_lt_of_gt hxy
        · show jsLtB x.score z.score = false
          have hyz : jsLtB y.score z.score = false := hy z hz
          cases hsz : z.score with
          | none => rw [hsx]; rfl
          | some sz =>
              rw [hsx]
              rw [hsy, hsz] at hyz
              exact jsLtB_false_of_lt hxy hyz
      · simp only [sortInsert, if_neg h]
        refine List.pairwise_cons.mpr ⟨?_, ih hys⟩
        intro z hz
        rcases (mem_sortInsert z x ys).mp hz with rfl | hz
        · exact eq_false_of_ne_true h
        · exact hy z hz

theorem sortByScoreDesc_pairwise (l : List RResult) :
    (sortByScoreDesc l).Pairwise noAscent := by
  suffices h : ∀ acc, acc.Pairwise noAscent →
      (l.foldl (fun acc x => sortInsert x acc) acc).Pairwise noAscent by
    exact h [] (by simp)
  induction l with
  | nil => intro acc hacc; simpa using hacc
  | cons x xs ih =>
      intro acc hacc
      exact ih (sortInsert x acc) (sortInsert_pairwise x acc hacc)

theorem sortByScoreDesc_perm (l : List RResult) :
    (sortByScoreDesc l).Perm l := by
  suffices h : ∀ acc,
      (l.foldl (fun acc x => sortInsert x acc) acc).Perm (acc ++ l) by
    simpa using h []
  induction l with
  | nil => intro acc; simp
  | cons x xs ih =>
      intro acc
      refine ((ih (sortInsert x acc)).trans ?_)
      refine ((sortInsert_perm x acc).append_right xs).trans ?_
      simpa using
        (show (acc ++ x :: xs).Perm (x :: (acc ++ xs)) from List.perm_middle).symm

/-- Stability of one insertion step: within any fixed score, `x` lands after
every already-inserted element of that score (given the sortedness
invariant of the accumulator). -/
theorem sortInsert_filter_score (x : RResult) (l : List RResult)
    (hl : l.Pairwise noAscent) (s : JSNum) :
    (sortInsert x l).filter (fun r => decide (r.score = s)) =
      if x.score = s then
        l.filter (fun r => decide (r.score = s)) ++ [x]
      else
        l.filter (fun r => decide (r.score = s)) := by
  induction l with
  | nil => by_cases hx : x.score = s <;> simp [sortInsert, hx]
  | cons y ys ih =>
      rcases List.pairwise_cons.mp hl with ⟨hy, hys⟩
      by_cases h : jsLtB y.score x.score
      · -- `x` is inserted in front; no element of `y :: ys` shares its score
        simp only [sortInsert, if_pos h]
        obtain ⟨sy, sx, hsy, hsx, hxy⟩ := jsLtB_true_iff.mp h
        have hne : ∀ z ∈ y :: ys, z.score ≠ x.score := by
          intro z hz
          rcases List.mem_cons.mp hz with rfl | hz
          · rw [hsy, hsx]
            intro hc
            exact absurd (Option.some.inj hc) (ne_of_lt hxy)
          · have hyz : jsLtB y.score z.score = false := hy z hz
            cases hsz : z.score with
            | none => rw [hsx]; simp
            | some sz =>
                rw [hsy, hsz] at hyz
                have hns : ¬ sy < sz := by simpa [jsLtB] using hyz
                rw [hsx]
                intro hc
                exact hns (by rw [Option.some.inj hc]; exact hxy)
        by_cases hx : x.score = s
        · have hfilt : (y :: ys).filter (fun r => decide (r.score = s)) = [] := by
            rw [List.filter_eq_nil_iff]
            intro z hz
            simp only [decide_eq_true_eq]
            rw [← hx]
            exact hne z hz
          simp [List.filter_cons, hx, hfilt]
        · simp [List.filter_cons, hx]
      · simp only [sortInsert, if_neg h]
        by_cases hx : x.score = s <;>
          by_cases hyscore : y.score = s <;>
            simp [List.filter_cons, hx, hyscore, ih hys]

/-- Stability of the full sort: for every score value, the elements holding
exactly that score appear in the sorted output in their original order. -/
theorem sortByScoreDesc_filter_score (l : List RResult) (s : JSNum) :
    (sortByScoreDesc l).filter (fun r => decide (r.score = s)) =
      l.filter (fun r => decide (r.score = s)) := by
  suffices h : ∀ acc, acc.Pairwise noAscent →
      (l.foldl (fun acc x => sortInsert x acc) acc).filter
          (fun r => decide (r.score = s)) =
        acc.filter (fun r => decide (r.score = s)) ++
          l.filter (fun r => decide (r.score = s)) by
    simpa using h [] (by simp)
  induction l with
  | nil => intro acc hacc; simp
  | cons x xs ih =>
      intro acc hacc
      rw [List.foldl_cons, ih (sortInsert x acc) (sortInsert_pairwise x acc hacc),
        sortInsert_filter_score x acc hacc s]
      by_cases hx : x.score = s
      · simp [List.filter_cons, hx]
      · simp [List.filter_cons, hx]

/-- The scored list built by `InMemoryVectorStore.search` before sorting:
one `RetrievalResult` per stored embedding, in insertion order. -/
noncomputable def scoredResults (store : List StoreEntry) (q : List ℝ) :
    List RResult :=
  store.map (fun e => ⟨e.chunk, cosineSimilarity q e.embedding⟩)

/-- `InMemoryVectorStore.search`: score every entry against the query,
sort descending by score (stably), return the first `topK`. -/
noncomputable def search (store : List StoreEntry) (q : List ℝ) (topK : ℕ) :
    List RResult :=
  (sortByScoreDesc (scoredResults store q)).take topK

/-- **C7** (confirmed).  `search` returns at most `k` entries, sorted so
that no later entry has a strictly greater score than an earlier one, and
entries with exactly equal scores keep their insertion order (the sort is
stable); the output is the `k`-prefix of the stably sorted scored list. -/
theorem search_sorted_stable (store : List StoreEntry) (q : List ℝ) (k : ℕ) :
    (search store q k).length ≤ k ∧
    (search store q k).Pairwise noAscent ∧
    (search store q k =
      (sortByScoreDesc (scoredResults store q)).take k) ∧
    ∀ s : JSNum,
      (sortByScoreDesc (scoredResults store q)).filter
          (fun r => decide (r.score = s)) =
        (scoredResults store q).filter (fun r => decide (r.score = s)) := by
  refine ⟨?_, ?_, rfl, fun s => sortByScoreDesc_filter_score _ s⟩
  · exact List.length_take_le k (sortByScoreDesc (scoredResults store q))
  · exact (sortByScoreDesc_pairwise (scoredResults store q)).sublist
      (List.take_sublist k _)

/-- The optional `filter` argument of `retrieve`. -/
structure RFilter where
  clauseType : Option Str
  source : Option Str

/-- The `options` argument of `retrieve`; `none` models an absent field. -/
structure ROptions where
  topK : Option ℕ
  minScore : Option ℝ
  filter : Option RFilter

/-- JavaScript `options.topK || default`: both `undefined` and `0` are
falsy, so they select the default. -/
def jsOrNat (o : Option ℕ) (d : ℕ) : ℕ :=
  match o with
  | some n => if n = 0 then d else n
  | none => d

/-- JavaScript `options.minScore || 0.3`: both `undefined` and `0` are
falsy, so they select the default. -/
noncomputable def jsOrReal (o : Option ℝ) (d : ℝ) : ℝ :=
  match o with
  | some x => if x = 0 then d else x
  | none => d

/-- The per-result filter of `retrieve`: a present non-empty
`clauseType`/`source` in the filter must equal the chunk metadata exactly
(a chunk without a clause type fails `!==` against any filter string; an
empty filter string is falsy and skips the check). -/
def passesFilter (f : RFilter) (r : RResult) : Bool :=
  (match f.clauseType with
   | some ct => ct.isEmpty || decide (r.chunk.meta.clauseType = some ct)
   | none => true) &&
  (match f.source with
   | some src => src.isEmpty || decide (r.chunk.meta.source = src)
   | none => true)

/-- `LangChainRAGService.retrieve` with the default configuration
(`this.topK = 5`), parameterized by the already-resolved query embedding:
the provider call and its mock fallback both produce some vector, and the
post-embedding processing is independent of which one was used. -/
noncomputable def retrieve (store : List StoreEntry) (queryEmbedding : List ℝ)
    (opts : ROptions) : List RResult :=
  let topK := jsOrNat opts.topK 5
  let minScore := jsOrReal opts.minScore (3 / 10)
  let results := search store queryEmbedding (topK * 2)
  let filtered := match opts.filter with
    | some f => results.filter (passesFilter f)
    | none => results
  (filtered.filter (fun r : RResult => jsGeB r.score minScore)).take topK

theorem retrieve_score_ge (store : List StoreEntry) (q : List ℝ)
    (opts : ROptions) :
    (retrieve store q opts).all
      (fun r : RResult => jsGeB r.score (jsOrReal opts.minScore (3 / 10))) = true := by
  rw [List.all_eq_true]
  intro r hr
  have hr' := List.take_subset _ _ hr
  exact (List.mem_filter.mp hr').2

theorem retrieve_length_le (store : List StoreEntry) (q : List ℝ)
    (opts : ROptions) :
    (retrieve store q opts).length ≤ jsOrNat opts.topK 5 :=
  List.length_take_le _ _

/-- **C6** (confirmed).  `retrieve` is exactly: search for `2×topK`
candidates, apply the optional metadata filter, drop scores below
`minScore`, truncate to `topK`; consequently every returned score passes
the `>= minScore` comparison and at most `topK` results are returned. -/
theorem retrieve_pipeline_bounds (store : List StoreEntry) (q : List ℝ)
    (opts : ROptions) :
    retrieve store q opts =
      (((match opts.filter with
          | some f =>
              (search store q (jsOrNat opts.topK 5 * 2)).filter (passesFilter f)
          | none => search store q (jsOrNat opts.topK 5 * 2)).filter
        (fun r : RResult => jsGeB r.score (jsOrReal opts.minScore (3 / 10)))).take
          (jsOrNat opts.topK 5)) ∧
    (retrieve store q opts).length ≤ jsOrNat opts.topK 5 ∧
    (retrieve store q opts).all
      (fun r : RResult => jsGeB r.score (jsOrReal opts.minScore (3 / 10))) = true :=
  ⟨rfl, retrieve_length_le store q opts, retrieve_score_ge store q opts⟩

/-- **C10** (confirmed).  Explicitly passing `topK = 0` or `minScore = 0`
behaves exactly like omitting them (`||` treats `0` as falsy): the
defaults `topK = 5` and `minScore = 0.3` apply, so a result scoring below
`0.3` is still excluded. -/
theorem retrieve_zero_options_default (store : List StoreEntry) (q : List ℝ)
    (f : Option RFilter) :
    retrieve store q ⟨some 0, some 0, f⟩ = retrieve store q ⟨none, none, f⟩ ∧
    (retrieve store q ⟨some 0, some 0, f⟩).all
      (fun r : RResult => jsGeB r.score (3 / 10)) = true := by
  constructor
  · simp [retrieve, jsOrNat, jsOrReal]
  · have h := retrieve_score_ge store q ⟨some 0, some 0, f⟩
    simpa [jsOrReal] using h

/-- `Math.round` (round half up), with `NaN` propagating. -/
noncomputable def jsRound : JSNum → JSNum
  | some x => some ((⌊x + 1 / 2⌋ : ℤ) : ℝ)
  | none => none

/-- `context.reduce((sum, r) => sum + r.score, 0)`. -/
def sumScores (context : List RResult) : JSNum :=
  context.foldl (fun s r => jsAdd s r.score) (some 0)

/-- `LangChainRAGService.calculateConfidence`:
`Math.round((avgScore * 0.6 + citationRatio * 0.4) * 100) / 100`, with the
empty-context guard returning `0`. -/
noncomputable def calculateConfidence (context : List RResult)
    (citationCount : ℕ) : JSNum :=
  if context.length = 0 then some 0
  else
    let avgScore := jsDiv (sumScores context) (some (context.length : ℝ))
    let citationRatio : ℝ := min ((citationCount : ℝ) / (context.length : ℝ)) 1
    jsDiv
      (jsRound (jsMul
        (jsAdd (jsMul avgScore (some (6 / 10))) (some (citationRatio * (4 / 10))))
        (some 100)))
      (some 100)

/-- A result score that is an actual number in `[0, 1]`. -/
noncomputable def scoreIn01 (r : RResult) : Bool :=
  match r.score with
  | some v => decide (0 ≤ v ∧ v ≤ 1)
  | none => false

theorem scoreIn01_iff (r : RResult) :
    scoreIn01 r = true ↔ ∃ v, r.score = some v ∧ 0 ≤ v ∧ v ≤ 1 := by
  cases h : r.score <;> simp [scoreIn01, h]

theorem foldl_jsAdd_bounds (l : List RResult)
    (h : ∀ r ∈ l, scoreIn01 r = true) :
    ∀ a : ℝ, ∃ s : ℝ,
      l.foldl (fun s r => jsAdd s r.score) (some a) = some s ∧
      a ≤ s ∧ s ≤ a + l.length := by
  induction l with
  | nil => intro a; exact ⟨a, rfl, le_refl a, by simp⟩
  | cons r rs ih =>
      intro a
      obtain ⟨v, hv, hv0, hv1⟩ :=
        (scoreIn01_iff r).mp (h r (List.mem_cons_self r rs))
      obtain ⟨s, hs, hs1, hs2⟩ :=
        ih (fun r hr => h r (List.mem_cons_of_mem _ hr)) (a + v)
      refine ⟨s, ?_, by linarith, ?_⟩
      · rw [List.foldl_cons]
        simp only [hv, jsAdd]
        exact hs
      · have hcast : ((rs.length + 1 : ℕ) : ℝ) = (rs.length : ℝ) + 1 := by
          push_cast
          ring
        simp only [List.length_cons, hcast]
        linarith

/-- The confidence formula as the spec words it: mean retrieved score and
capped citation ratio combined `0.6 / 0.4`, rounded to two decimals.
Stated over the raw score list (all scores actual numbers). -/
noncomputable def specConfidence (scores : List ℝ) (citationCount : ℕ) : ℝ :=
  ((⌊((scores.sum / (scores.length : ℝ)) * (6 / 10) +
      min ((citationCount : ℝ) / (scores.length : ℝ)) 1 * (4 / 10)) * 100 +
    1 / 2⌋ : ℤ) : ℝ) / 100

/-- A placeholder chunk used to build concrete retrieval results. -/
def sampleChunk : Chunk := ⟨[], [], ⟨[], 0, 0, [], none⟩⟩

theorem foldl_jsAdd_sum (scores : List ℝ) :
    ∀ a : ℝ,
      (scores.map (fun v => RResult.mk sampleChunk (some v))).foldl
          (fun s r => jsAdd s r.score) (some a) = some (a + scores.sum) := by
  induction scores with
  | nil => intro a; simp
  | cons v vs ih =>
      intro a
      simp only [List.map_cons, List.foldl_cons, List.sum_cons]
      rw [show jsAdd (some a) (RResult.mk sampleChunk (some v)).score =
        some (a + v) from rfl, ih (a + v), add_assoc]

/-- **C9** (corrected).  The empty-context confidence is `0`, and the code
computes exactly the spec's formula; but the result is only guaranteed to
lie in `[0, 1]` when every context score is an actual number in `[0, 1]`
(retrieval scores normally are): a caller-supplied negative score makes the
confidence negative, refuting the unconditional "in all cases" range claim. -/
theorem calculateConfidence_range (context : List RResult) (cc : ℕ) :
    (context.length = 0 → calculateConfidence context cc = some 0) ∧
    (context.all scoreIn01 = true →
      ∃ v, calculateConfidence context cc = some v ∧ 0 ≤ v ∧ v ≤ 1) ∧
    (∀ scores : List ℝ,
      context = scores.map (fun v => RResult.mk sampleChunk (some v)) →
      scores ≠ [] →
      calculateConfidence context cc = some (specConfidence scores cc)) := by
  refine ⟨fun h => by simp [calculateConfidence, h], ?_, ?_⟩
  · intro hall
    by_cases h0 : context.length = 0
    · exact ⟨0, by simp [calculateConfidence, h0], le_refl 0, by norm_num⟩
    · have hn : (0 : ℝ) < (context.length : ℝ) := by
        have hpos := Nat.pos_of_ne_zero h0
        exact_mod_cast hpos
      obtain ⟨s, hs, hs0, hsn⟩ :=
        foldl_jsAdd_bounds context (fun r hr => List.all_eq_true.mp hall r hr) 0
      have hsn' : s ≤ (context.length : ℝ) := by
        simpa using hsn
      have havg0 : 0 ≤ s / (context.length : ℝ) := by positivity
      have havg1 : s / (context.length : ℝ) ≤ 1 := by
        rw [div_le_one hn]
        exact hsn'
      have hr0 : (0 : ℝ) ≤ min ((cc : ℝ) / (context.length : ℝ)) 1 :=
        le_min (by positivity) (by norm_num)
      have hr1 : min ((cc : ℝ) / (context.length : ℝ)) 1 ≤ 1 := min_le_right _ _
      have hc0 : 0 ≤ s / (context.length : ℝ) * (6 / 10) +
          min ((cc : ℝ) / (context.length : ℝ)) 1 * (4 / 10) := by
        linarith
      have hc1 : s / (context.length : ℝ) * (6 / 10) +
          min ((cc : ℝ) / (context.length : ℝ)) 1 * (4 / 10) ≤ 1 := by
        linarith
      have hfl0 : (0 : ℤ) ≤ ⌊(s / (context.length : ℝ) * (6 / 10) +
          min ((cc : ℝ) / (context.length : ℝ)) 1 * (4 / 10)) * 100 + 1 / 2⌋ := by
        rw [Int.le_floor]
        push_cast
        linarith
      have hfl1 : ⌊(s / (context.length : ℝ) * (6 / 10) +
          min ((cc : ℝ) / (context.length : ℝ)) 1 * (4 / 10)) * 100 + 1 / 2⌋ ≤ 100 := by
        have hlt : ⌊(s / (context.length : ℝ) * (6 / 10) +
            min ((cc : ℝ) / (context.length : ℝ)) 1 * (4 / 10)) * 100 + 1 / 2⌋ < 101 := by
          rw [Int.floor_lt]
          push_cast
          linarith
        omega
      refine ⟨((⌊(s / (context.length : ℝ) * (6 / 10) +
          min ((cc : ℝ) / (context.length : ℝ)) 1 * (4 / 10)) * 100 + 1 / 2⌋ : ℤ) : ℝ) / 100,
        ?_, ?_, ?_⟩
      · simp only [calculateConfidence, if_neg h0, sumScores]
        rw [hs]
        simp only [jsDiv]
        rw [if_neg (ne_of_gt hn)]
        simp only [jsMul, jsAdd, jsRound, jsDiv]
        rw [if_neg (by norm_num : (100 : ℝ) ≠ 0)]
      · have hge : (0 : ℝ) ≤ ((⌊(s / (context.length : ℝ) * (6 / 10) +
            min ((cc : ℝ) / (context.length : ℝ)) 1 * (4 / 10)) * 100 + 1 / 2⌋ : ℤ) : ℝ) := by
          exact_mod_cast hfl0
        exact div_nonneg hge (by norm_num)
      · rw [div_le_one (by norm_num : (0 : ℝ) < 100)]
        exact_mod_cast hfl1
  · intro scores hctx hne
    subst hctx
    have hlen0 : scores.length ≠ 0 := fun h => hne (List.length_eq_zero.mp h)
    have hn0 : (scores.map (fun v => RResult.mk sampleChunk (some v))).length ≠ 0 := by
      simpa using hlen0
    have hnR : ((scores.length : ℕ) : ℝ) ≠ 0 := by
      exact_mod_cast hlen0
    simp only [calculateConfidence, if_neg hn0, sumScores, specConfidence,
      List.length_map]
    rw [foldl_jsAdd_sum scores 0]
    simp only [jsDiv]
    rw [if_neg hnR]
    simp only [jsMul, jsAdd, jsRound, jsDiv, zero_add]
    rw [if_neg (by norm_num : (100 : ℝ) ≠ 0), if_neg hlen0]

/-- Witness for `calculateConfidence_range` at a concrete context. -/
theorem calculateConfidence_range_witness :
    (∃ v, calculateConfidence [RResult.mk sampleChunk (some (1 / 2))] 1 =
        some v ∧ 0 ≤ v ∧ v ≤ 1) ∧
    calculateConfidence [RResult.mk sampleChunk (some (1 / 2))] 1 =
      some (specConfidence [1 / 2] 1) := by
  constructor
  · refine (calculateConfidence_range
      [RResult.mk sampleChunk (some (1 / 2))] 1).2.1 ?_
    simp [scoreIn01]
    norm_num
  · exact (calculateConfidence_range
      [RResult.mk sampleChunk (some (1 / 2))] 1).2.2 [1 / 2] (by simp) (by simp)

/-- **C9**, counterexample to the unconditional `[0, 1]` range claim: one
context entry with score `-1` (a value cosine similarity can produce) and
zero citations yields confidence `-0.6`. -/
theorem calculateConfidence_range_counterexample :
    calculateConfidence [RResult.mk sampleChunk (some (-1))] 0 =
      some (-(3 / 5)) ∧ ¬ (0 : ℝ) ≤ -(3 / 5) := by
  constructor
  · have hs : sumScores [RResult.mk sampleChunk (some (-1))] = some (-1) := by
      simp [sumScores, jsAdd]
    have h0 : ¬ ([RResult.mk sampleChunk (some (-1))].length = 0) := by
      simp
    simp only [calculateConfidence, if_neg h0, List.length_cons,
      List.length_nil, Nat.cast_one, Nat.cast_zero, Nat.cast_ofNat]
    rw [hs]
    simp only [jsDiv]
    rw [if_neg (by norm_num : ((0 + 1 : ℕ) : ℝ) ≠ 0)]
    simp only [jsMul, jsAdd, jsRound, jsDiv]
    rw [if_neg (by norm_num : (100 : ℝ) ≠ 0),
      if_neg (by norm_num : ¬ ((0 + 1 : ℕ) = 0))]
    norm_num
  · norm_num

/-- One `RAGResponse` citation entry. -/
structure Citation where
  chunkId : Str
  content : Str
  source : Str
  relevanceScore : JSNum

/-- The `RAGResponse` returned by `generate`. -/
structure RAGResponse where
  answer : Str
  citations : List Citation
  confidence : JSNum
  groundedOnSources : Bool

/-- Builds one citation from a retrieval result
(`content.substring(0, 200) + '...'`). -/
def mkCitation (r : RResult) : Citation :=
  ⟨r.chunk.id, r.chunk.content.take 200 ++ "...".toList,
    r.chunk.meta.source, r.score⟩

/-- `parseInt` on a non-empty decimal digit run. -/
def digitsVal (ds : Str) : ℕ :=
  ds.foldl (fun n c => n * 10 + (c.toNat - Char.toNat '0')) 0

/-- The `/\[(\d+)\]/g` scan of `generate`: the marker values found in the
answer, each shifted to a zero-based index (`parseInt(match[1]) - 1`), in
appearance order with repetitions.  The regex engine matches `[`, a
non-empty digit run, `]`, and continues after each match; since a matched
region past its opening bracket holds only digits and `]`, no new match
can start inside it, so continuing character-by-character (as below) finds
exactly the same matches. -/
def markers : Str → List ℤ
  | [] => []
  | c :: rest =>
    if c = '[' then
      let ds := rest.takeWhile (fun d => d.isDigit)
      if ds ≠ [] ∧ (rest.drop ds.length).head? = some ']' then
        ((digitsVal ds : ℤ) - 1) :: markers rest
      else markers rest
    else markers rest

/-- JavaScript `Set` semantics: add each value once, iterate in insertion
order.  `seen` holds the values added so far. -/
def dedupAux (seen : List ℤ) : List ℤ → List ℤ
  | [] => []
  | x :: xs =>
      if x ∈ seen then dedupAux seen xs
      else x :: dedupAux (x :: seen) xs

/-- `Array.from(new Set(...))`: first occurrences in insertion order. -/
def dedupKeepFirst (l : List ℤ) : List ℤ := dedupAux [] l

/-- `Array.from(citedIndices).filter(i => i >= 0 && i < context.length)`. -/
def validCitedIndices (ans : Str) (len : ℕ) : List ℤ :=
  (dedupKeepFirst (markers ans)).filter
    (fun i => decide (0 ≤ i) && decide (i < (len : ℤ)))

/-- The templated fallback answer of the `catch` branch of `generate`. -/
def fallbackAnswer (n : ℕ) : Str :=
  "Based on the provided documents, I found ".toList ++ (Nat.repr n).toList ++
  (" relevant sections. However, I encountered an issue generating a " ++
   "detailed response. Please try again or review the source documents " ++
   "directly.").toList

/-- `LangChainRAGService.generate`, parameterized by the outcome of the
completion call: `none` models a thrown provider error, `some ans` a
successful call whose message content (after `|| ''`) is `ans`.  The query
only feeds the provider prompt and does not influence the response
structure. -/
noncomputable def generate (providerAnswer : Option Str)
    (context : List RResult) : RAGResponse :=
  match providerAnswer with
  | some ans =>
      let idxs := validCitedIndices ans context.length
      let citations := idxs.filterMap
        (fun i => (context.get? i.toNat).map mkCitation)
      ⟨ans, citations, calculateConfidence context citations.length,
        decide (0 < citations.length)⟩
  | none =>
      ⟨fallbackAnswer context.length, (context.take 3).map mkCitation,
        some (1 / 2), true⟩

/-- **C2** (corrected).  When the generation call fails, `generate` returns
normally with the templated fallback answer, the first `min(3, |context|)`
context passages as citations, confidence exactly `0.5`, and
`groundedOnSources` set to `true` unconditionally — so the citations are
non-empty only when the context is non-empty, not always as claimed. -/
theorem generate_fallback (context : List RResult) :
    generate none context =
      ⟨fallbackAnswer context.length, (context.take 3).map mkCitation,
        some (1 / 2), true⟩ ∧
    (generate none context).citations.length = min 3 context.length ∧
    ((generate none context).citations = [] ↔ context = []) := by
  refine ⟨rfl, ?_, ?_⟩
  · show ((context.take 3).map mkCitation).length = min 3 context.length
    rw [List.length_map, List.length_take]
  · show (context.take 3).map mkCitation = [] ↔ context = []
    rw [List.map_eq_nil_iff, List.take_eq_nil_iff]
    simp

/-- **C2**, counterexample to the claim as stated: with an empty context the
fallback response is still marked `groundedOnSources = true` although its
citation list is empty. -/
theorem generate_fallback_counterexample :
    (generate none []).groundedOnSources = true ∧
    (generate none []).citations = [] := by
  exact ⟨rfl, rfl⟩

theorem dedupAux_sublist (l : List ℤ) :
    ∀ seen, (dedupAux seen l).Sublist l := by
  induction l with
  | nil => intro seen; simp [dedupAux]
  | cons x xs ih =>
      intro seen
      by_cases hx : x ∈ seen
      · simp only [dedupAux, if_pos hx]
        exact (ih seen).trans (List.sublist_cons_self x xs)
      · simp only [dedupAux, if_neg hx]
        exact (ih (x :: seen)).cons₂ x

theorem dedupAux_not_mem_seen (l : List ℤ) :
    ∀ seen a, a ∈ dedupAux seen l → a ∉ seen := by
  induction l with
  | nil => intro seen a ha; simp [dedupAux] at ha
  | cons x xs ih =>
      intro seen a ha
      by_cases hx : x ∈ seen
      · rw [dedupAux, if_pos hx] at ha
        exact ih seen a ha
      · rw [dedupAux, if_neg hx] at ha
        rcases List.mem_cons.mp ha with rfl | ha
        · exact hx
        · intro hseen
          exact ih (x :: seen) a ha (List.mem_cons_of_mem x hseen)

theorem dedupKeepFirst_sublist (l : List ℤ) : (dedupKeepFirst l).Sublist l :=
  dedupAux_sublist l []

theorem dedupAux_nodup (l : List ℤ) : ∀ seen, (dedupAux seen l).Nodup := by
  induction l with
  | nil => intro seen; simp [dedupAux]
  | cons x xs ih =>
      intro seen
      by_cases hx : x ∈ seen
      · simpa [dedupAux, if_pos hx] using ih seen
      · rw [dedupAux, if_neg hx]
        refine List.nodup_cons.mpr ⟨?_, ih (x :: seen)⟩
        intro hmem
        exact dedupAux_not_mem_seen xs (x :: seen) x hmem
          (List.mem_cons_self x seen)

theorem dedupKeepFirst_nodup (l : List ℤ) : (dedupKeepFirst l).Nodup :=
  dedupAux_nodup l []

theorem dedupAux_pairwise (l : List ℤ) :
    ∀ seen, (dedupAux seen l).Pairwise
      (fun i j => l.indexOf i < l.indexOf j) := by
  induction l with
  | nil => intro seen; simp [dedupAux]
  | cons x xs ih =>
      intro seen
      by_cases hx : x ∈ seen
      · rw [dedupAux, if_pos hx]
        refine (ih seen).imp_of_mem ?_
        intro i j hi hj hlt
        have hix : i ≠ x := by
          intro hc
          exact dedupAux_not_mem_seen xs seen i hi (hc ▸ hx)
        have hjx : j ≠ x := by
          intro hc
          exact dedupAux_not_mem_seen xs seen j hj (hc ▸ hx)
        rw [List.indexOf_cons_ne _ (fun hc => hix hc.symm),
          List.indexOf_cons_ne _ (fun hc => hjx hc.symm)]
        omega
      · rw [dedupAux, if_neg hx]
        refine List.pairwise_cons.mpr ⟨?_, ?_⟩
        · intro j hj
          have hjx : j ≠ x := by
            intro hc
            exact dedupAux_not_mem_seen xs (x :: seen) j hj
              (hc ▸ List.mem_cons_self x seen)
          rw [List.indexOf_cons_self,
            List.indexOf_cons_ne _ (fun hc => hjx hc.symm)]
          omega
        · refine (ih (x :: seen)).imp_of_mem ?_
          intro i j hi hj hlt
          have hix : i ≠ x := by
            intro hc
            exact dedupAux_not_mem_seen xs (x :: seen) i hi
              (hc ▸ List.mem_cons_self x seen)
          have hjx : j ≠ x := by
            intro hc
            exact dedupAux_not_mem_seen xs (x :: seen) j hj
              (hc ▸ List.mem_cons_self x seen)
          rw [List.indexOf_cons_ne _ (fun hc => hix hc.symm),
            List.indexOf_cons_ne _ (fun hc => hjx hc.symm)]
          omega

theorem dedupKeepFirst_pairwise (l : List ℤ) :
    (dedupKeepFirst l).Pairwise (fun i j => l.indexOf i < l.indexOf j) :=
  dedupAux_pairwise l []

/-- **C8** (confirmed).  The citation indices extracted from a successful
answer are all in `[0, |context|)` (out-of-range markers are discarded),
contain no duplicates, and appear in order of the first occurrence of their
marker in the answer; the citation list maps exactly those indices to
context entries. -/
theorem generate_citations_valid (ans : Str) (context : List RResult) :
    (∀ i ∈ validCitedIndices ans context.length,
      0 ≤ i ∧ i < (context.length : ℤ)) ∧
    (validCitedIndices ans context.length).Nodup ∧
    (validCitedIndices ans context.length).Pairwise
      (fun i j => (markers ans).indexOf i < (markers ans).indexOf j) ∧
    (generate (some ans) context).citations =
      (validCitedIndices ans context.length).filterMap
        (fun i => (context.get? i.toNat).map mkCitation) := by
  refine ⟨?_, ?_, ?_, rfl⟩
  · intro i hi
    rcases List.mem_filter.mp hi with ⟨_, hdec⟩
    simp only [Bool.and_eq_true, decide_eq_true_eq] at hdec
    exact hdec
  · exact (dedupKeepFirst_nodup (markers ans)).sublist
      (List.filter_sublist _)
  · exact (dedupKeepFirst_pairwise (markers ans)).sublist
      (List.filter_sublist _)

/-- JavaScript `\s` restricted to the whitespace characters that occur in
practice (ASCII whitespace and NBSP). -/
def isWs (c : Char) : Bool :=
  c == ' ' || c == '\t' || c == '\n' || c == '\r' ||
  c == '\x0B' || c == '\x0C' || c == ' '

/-- `String.prototype.trim`. -/
def trimStr (s : Str) : Str :=
  ((s.dropWhile isWs).reverse.dropWhile isWs).reverse

/-- Case-insensitive prefix test (for a lowercase pattern). -/
def ciPrefix (pat : Str) (s : Str) : Bool :=
  (s.take pat.length).map Char.toLower == pat

/-- After a keyword of pass 1: `\s+\d` (at least one whitespace character,
then a digit at the first non-whitespace position). -/
def kwTail (kw : Str) (u : Str) : Bool :=
  ciPrefix kw u &&
    (let v := u.drop kw.length
     (v.head?.any isWs) &&
       (match (v.dropWhile isWs).head? with
        | some d => d.isDigit
        | none => false))

/-- Lookahead of pass 1, `(?=\n\s*(?:Section|Article|Clause)\s+\d+)` with
the `i` flag: a newline, optional whitespace, one of the keywords
case-insensitively, whitespace, then a digit. -/
def sectionLookahead (s : Str) : Bool :=
  match s with
  | '\n' :: r =>
      let u := r.dropWhile isWs
      kwTail "section".toList u || kwTail "article".toList u ||
        kwTail "clause".toList u
  | _ => false

/-- Lookahead of pass 2, `(?=\n\s*\d+\.\s+[A-Z])`: a newline, optional
whitespace, a non-empty digit run, a dot, whitespace, then an ASCII
capital letter. -/
def numberedLookahead (s : Str) : Bool :=
  match s with
  | '\n' :: r =>
      let u := r.dropWhile isWs
      let ds := u.takeWhile (fun c => c.isDigit)
      decide (ds ≠ []) &&
        (match u.drop ds.length with
         | '.' :: v =>
             (v.head?.any isWs) &&
               (match (v.dropWhile isWs).head? with
                | some c => c.isUpper
                | none => false)
         | _ => false)
  | _ => false

/-- Walks the string for a zero-width (lookahead) split; `acc` is the
current piece, reversed.  A split happens before every position whose
suffix satisfies `pred`. -/
def laSplitGo (pred : Str → Bool) : Str → Str → List Str
  | [], acc => [acc.reverse]
  | c :: rest, acc =>
      if pred (c :: rest) then acc.reverse :: laSplitGo pred rest [c]
      else laSplitGo pred rest (c :: acc)

/-- `String.split` on a zero-width (lookahead) regex: split before every
matching position except position `0` (the ECMAScript split algorithm
skips an empty match at the start). -/
def laSplit (pred : Str → Bool) : Str → List Str
  | [] => [[]]
  | c :: rest => laSplitGo pred rest [c]

/-- The characters the `/\n\s*\n+/` separator consumes after its leading
newline: greedy `\s*` backtracks so the match ends at the last newline of
the whitespace run (`none` when the run has no further newline). -/
def sepMatchTail (rest : Str) : Option ℕ :=
  let run := rest.takeWhile isWs
  match run.reverse.findIdx? (fun c => c == '\n') with
  | some j => some (run.length - 1 - j + 1)
  | none => none

/-- Walks the string for the separator split of pass 3; `acc` is the
current piece reversed, and `skip` counts separator characters still to be
consumed (matching resumes only after the previous match ends). -/
def sepGo : Str → Str → ℕ → List Str
  | [], acc, _ => [acc.reverse]
  | _ :: rest, acc, skip + 1 => sepGo rest acc skip
  | c :: rest, acc, 0 =>
      if c = '\n' then
        match sepMatchTail rest with
        | some k => acc.reverse :: sepGo rest [] k
        | none => sepGo rest (c :: acc) 0
      else sepGo rest (c :: acc) 0

/-- `String.split(/\n\s*\n+/g)`: remove each separator match, keeping the
(possibly empty) pieces between matches. -/
def sepSplit (t : Str) : List Str := sepGo t [] 0

/-- `LangChainRAGService.segmentClauses`: the three cascading split passes
(`segments.flatMap(seg => seg.split(pattern))`), then trim, then keep only
segments whose length exceeds 50. -/
def segmentClauses (text : Str) : List Str :=
  (((([text].flatMap (laSplit sectionLookahead)).flatMap
        (laSplit numberedLookahead)).flatMap sepSplit).map trimStr).filter
    (fun s => decide (50 < s.length))

theorem laSplitGo_length_sum (pred : Str → Bool) :
    ∀ s acc : Str,
      ((laSplitGo pred s acc).map List.length).sum = s.length + acc.length := by
  intro s
  induction s with
  | nil => intro acc; simp [laSplitGo]
  | cons c rest ih =>
      intro acc
      by_cases h : pred (c :: rest)
      · simp only [laSplitGo, if_pos h, List.map_cons, List.sum_cons, ih,
          List.length_reverse, List.length_cons, List.length_nil]
        omega
      · simp only [laSplitGo, if_neg h, ih, List.length_cons]
        omega

theorem laSplit_piece_le (pred : Str → Bool) (t : Str) :
    ∀ p ∈ laSplit pred t, p.length ≤ t.length := by
  intro p hp
  cases t with
  | nil =>
      simp only [laSplit, List.mem_singleton] at hp
      simp [hp]
  | cons c rest =>
      have hsum := laSplitGo_length_sum pred rest [c]
      have hmem : p.length ∈ (laSplitGo pred rest [c]).map List.length :=
        List.mem_map_of_mem List.length hp
      have hle := List.single_le_sum (fun x _ => Nat.zero_le x) _ hmem
      rw [hsum] at hle
      simpa using hle

theorem sepGo_length_sum_le :
    ∀ s : Str, ∀ (acc : Str) (skip : ℕ),
      ((sepGo s acc skip).map List.length).sum ≤ s.length + acc.length := by
  intro s
  induction s with
  | nil =>
      intro acc skip
      cases skip <;> simp [sepGo]
  | cons c rest ih =>
      intro acc skip
      cases skip with
      | succ n =>
          have h := ih acc n
          simp only [sepGo, List.length_cons]
          omega
      | zero =>
          by_cases hc : c = '\n'
          · subst hc
            cases hmt : sepMatchTail rest with
            | some k =>
                simp only [sepGo, if_pos rfl, if_true, ite_true, hmt,
                  List.map_cons, List.sum_cons, List.length_reverse,
                  List.length_cons]
                have h := ih [] k
                simp only [List.length_nil, Nat.add_zero] at h
                omega
            | none =>
                simp only [sepGo, if_pos rfl, if_true, ite_true, hmt]
                have h := ih ('\n' :: acc) 0
                simp only [List.length_cons] at h ⊢
                omega
          · simp only [sepGo, if_neg hc]
            have h := ih (c :: acc) 0
            simp only [List.length_cons] at h ⊢
            omega

theorem sepSplit_piece_le (t : Str) :
    ∀ p ∈ sepSplit t, p.length ≤ t.length := by
  intro p hp
  have hsum := sepGo_length_sum_le t [] 0
  have hmem : p.length ∈ (sepGo t [] 0).map List.length :=
    List.mem_map_of_mem List.length hp
  have hle := List.single_le_sum (fun x _ => Nat.zero_le x) _ hmem
  have hfin := le_trans hle hsum
  simpa using hfin

theorem trimStr_length_le (s : Str) : (trimStr s).length ≤ s.length := by
  unfold trimStr
  calc ((s.dropWhile isWs).reverse.dropWhile isWs).reverse.length
      = ((s.dropWhile isWs).reverse.dropWhile isWs).length := by
        rw [List.length_reverse]
    _ ≤ (s.dropWhile isWs).reverse.length :=
        (List.dropWhile_sublist _).length_le
    _ = (s.dropWhile isWs).length := by rw [List.length_reverse]
    _ ≤ s.length := (List.dropWhile_sublist _).length_le

/-- **C4** (corrected).  The Segmenter keeps exactly the trimmed segments
whose length strictly exceeds 50 characters — so a trimmed segment of
exactly 50 characters is dropped, contrary to the "length ≥ 50 is kept"
reading — and any input of length at most 50 produces no segments. -/
theorem segmentClauses_min_length (text : Str) :
    (∀ s ∈ segmentClauses text, 51 ≤ s.length) ∧
    (text.length ≤ 50 → segmentClauses text = []) := by
  constructor
  · intro s hs
    have hdec := (List.mem_filter.mp hs).2
    have h50 : 50 < s.length := of_decide_eq_true hdec
    omega
  · intro hlen
    unfold segmentClauses
    rw [List.filter_eq_nil_iff]
    intro s hs
    obtain ⟨p, hp, rfl⟩ := List.mem_map.mp hs
    obtain ⟨q, hq, hpq⟩ := List.mem_flatMap.mp hp
    obtain ⟨u, hu, huq⟩ := List.mem_flatMap.mp hq
    obtain ⟨v, hv, hvu⟩ := List.mem_flatMap.mp hu
    have hveq : v = text := List.mem_singleton.mp hv
    rw [hveq] at hvu
    have h1 : u.length ≤ text.length := laSplit_piece_le _ _ _ hvu
    have h2 : q.length ≤ u.length := laSplit_piece_le _ _ _ huq
    have h3 : p.length ≤ q.length := sepSplit_piece_le _ _ hpq
    have h4 : (trimStr p).length ≤ p.length := trimStr_length_le p
    simp only [decide_eq_true_eq]
    omega

/-- Witness for `segmentClauses_min_length`: a 40-character text yields no
segments. -/
theorem segmentClauses_min_length_witness :
    segmentClauses (List.replicate 40 'a') = [] :=
  (segmentClauses_min_length (List.replicate 40 'a')).2 (by simp)

/-- **C4**, counterexample to the claim as stated: a 50-character text is a
single trimmed segment of length exactly 50 (`>= 50`), yet the Segmenter
drops it (the filter requires `> 50`). -/
theorem segmentClauses_min_length_counterexample :
    trimStr (List.replicate 50 'a') = List.replicate 50 'a' ∧
    (List.replicate 50 'a').length = 50 ∧
    segmentClauses (List.replicate 50 'a') = [] := by
  refine ⟨by decide, by decide, by decide⟩

/-- Lowercased content (`content.toLowerCase()`). -/
def lowerStr (s : Str) : Str := s.map Char.toLower

/-- The ordered category→pattern table of `classifyClauseType`; each regex
is an alternation of literal substrings. -/
def clausePatterns : List (Str × List Str) :=
  [("indemnification".toList,
      ["indemnif".toList, "hold harmless".toList, "defend and indemnify".toList]),
   ("liability".toList,
      ["liability".toList, "limitation".toList, "cap".toList, "damages".toList]),
   ("termination".toList,
      ["terminat".toList, "cancel".toList, "expir".toList, "renew".toList]),
   ("confidentiality".toList,
      ["confidential".toList, "proprietary".toList, "non-disclosure".toList,
       "nda".toList]),
   ("intellectual_property".toList,
      ["intellectual property".toList, "ip rights".toList, "copyright".toList,
       "patent".toList, "trademark".toList]),
   ("payment".toList,
      ["payment".toList, "invoice".toList, "fee".toList, "compensation".toList,
       "pricing".toList]),
   ("data_protection".toList,
      ["data protection".toList, "gdpr".toList, "ccpa".toList,
       "privacy".toList, "personal data".toList]),
   ("governing_law".toList,
      ["governing law".toList, "jurisdiction".toList, "dispute".toList,
       "arbitration".toList]),
   ("force_majeure".toList,
      ["force majeure".toList, "act of god".toList, "unforeseeable".toList]),
   ("warranty".toList,
      ["warranty".toList, "warrant".toList, "guarantee".toList,
       "representation".toList])]

/-- `pat` occurs as a contiguous substring of the first argument. -/
def containsSub : Str → Str → Bool
  | [], pat => pat.isEmpty
  | s@(_ :: rest), pat => pat.isPrefixOf s || containsSub rest pat

/-- `classifyClauseType`: first matching category, else "general". -/
def classifyClauseType (content : Str) : Str :=
  let lc := lowerStr content
  match clausePatterns.find? (fun p => p.2.any (fun pat => containsSub lc pat)) with
  | some p => p.1
  | none => "general".toList

/-- `[A-Za-z\s&]`, the heading capture class. -/
def isHeadChar (c : Char) : Bool := c.isAlpha || isWs c || c == '&'

/-- The `\s*\d*\.?\s*([A-Z][A-Za-z\s&]+)` tail of the heading regex.  The
quantified prefixes need no backtracking: each is followed by a token
outside its own character class. -/
def headingTail (u : Str) : Option Str :=
  let u1 := u.dropWhile isWs
  let u2 := u1.dropWhile (fun c => c.isDigit)
  let u3 := match u2 with
    | '.' :: r => r
    | _ => u2
  let u4 := u3.dropWhile isWs
  match u4 with
  | c :: r =>
      if c.isUpper then
        let cap := r.takeWhile isHeadChar
        if cap.isEmpty then none else some (c :: cap)
      else none
  | [] => none

/-- `extractHeading`:
`/^(?:Section|Article|Clause)?\s*\d*\.?\s*([A-Z][A-Za-z\s&]+)/` with
`match[1].trim()`, defaulting to "Unnamed Section"; the keyword
alternatives are tried in order, then the empty optional prefix. -/
def extractHeading (content : Str) : Str :=
  let tryKw := fun (kw : Str) =>
    if kw.isPrefixOf content then headingTail (content.drop kw.length)
    else none
  match tryKw "Section".toList <|> tryKw "Article".toList <|>
      tryKw "Clause".toList <|> headingTail content with
  | some cap => trimStr cap
  | none => "Unnamed Section".toList

/-- The window starts of the oversized-segment loop: `0, step, 2·step, …`
while the start is below the segment length (the source's `while` loop
advances `start` by `chunkSize - chunkOverlap`; with the default
configuration the step is `800`; a zero step — on which the source loop
would not terminate — yields no windows). -/
def chunkStarts (len step : ℕ) : List ℕ :=
  if step = 0 then [] else (List.range ((len + step - 1) / step)).map (· * step)

/-- The chunk pushed for the slice `[s, e)` of the running document. -/
def mkChunk (source : Str) (idx : ℕ) (content : Str) (s e : ℕ) : Chunk :=
  ⟨source ++ "-".toList ++ (Nat.repr idx).toList, content,
    ⟨source, s, e, extractHeading content, some (classifyClauseType content)⟩⟩

/-- `LangChainRAGService.createChunks`: a segment within `chunkSize`
becomes one chunk; a larger one is windowed at `chunkStarts` with content
`segment.slice(start, min(start + chunkSize, len))`; `charOffset`
accumulates segment lengths so spans are in source coordinates; chunk ids
carry the running chunk count. -/
def createChunks (chunkSize overlap : ℕ) (segments : List Str)
    (source : Str) : List Chunk :=
  (segments.foldl
    (fun (st : List Chunk × ℕ) seg =>
      let chunks := st.1
      let off := st.2
      if seg.length ≤ chunkSize then
        (chunks ++ [mkChunk source chunks.length seg off (off + seg.length)],
          off + seg.length)
      else
        (chunks ++ (List.enum (chunkStarts seg.length (chunkSize - overlap))).map
            (fun p =>
              mkChunk source (chunks.length + p.1)
                ((seg.drop p.2).take (min (p.2 + chunkSize) seg.length - p.2))
                (off + p.2) (off + min (p.2 + chunkSize) seg.length)),
          off + seg.length))
    ([], 0)).1

theorem map_enumFrom_snd {α β : Type} (g : α → β) :
    ∀ (l : List α) (n : ℕ),
      (List.enumFrom n l).map (fun p => g p.2) = l.map g := by
  intro l
  induction l with
  | nil => intro n; simp
  | cons x xs ih => intro n; simp [List.enumFrom, ih]

theorem chunkStarts_length (len : ℕ) :
    (chunkStarts len 800).length = (len + 799) / 800 := by
  simp [chunkStarts]

/-- **C5** (corrected).  For a segment longer than the (default) window of
1000, the Chunker emits one passage per window start, advancing by 800,
stopping once a window would start at or past the segment length; each
consecutive pair of spans overlaps by `min(200, len − next start)` — that
is exactly 200 for every pair except possibly the final one, which
overlaps by less when the previous window already reaches the segment
end. -/
theorem createChunks_window_overlaps (seg source : Str)
    (hlong : 1000 < seg.length) :
    (createChunks 1000 200 [seg] source).map
        (fun c => (c.meta.charStart, c.meta.charEnd)) =
      (chunkStarts seg.length 800).map
        (fun st => (st, min (st + 1000) seg.length)) ∧
    (createChunks 1000 200 [seg] source).length = (seg.length + 799) / 800 ∧
    ∀ i : ℕ, ∀ h : i + 1 < (createChunks 1000 200 [seg] source).length,
      ((createChunks 1000 200 [seg] source).get
          ⟨i + 1, h⟩).meta.charStart = (i + 1) * 800 ∧
      ((createChunks 1000 200 [seg] source).get
          ⟨i, by omega⟩).meta.charEnd = min (i * 800 + 1000) seg.length ∧
      ((createChunks 1000 200 [seg] source).get ⟨i, by omega⟩).meta.charEnd -
          ((createChunks 1000 200 [seg] source).get ⟨i + 1, h⟩).meta.charStart =
        min 200 (seg.length - (i + 1) * 800) ∧
      0 < ((createChunks 1000 200 [seg] source).get ⟨i, by omega⟩).meta.charEnd -
          ((createChunks 1000 200 [seg] source).get ⟨i + 1, h⟩).meta.charStart ∧
      (i + 2 < (createChunks 1000 200 [seg] source).length →
        ((createChunks 1000 200 [seg] source).get ⟨i, by omega⟩).meta.charEnd -
            ((createChunks 1000 200 [seg] source).get ⟨i + 1, h⟩).meta.charStart
          = 200) := by
  have hnotle : ¬ (seg.length ≤ 1000) := by omega
  have hcs : createChunks 1000 200 [seg] source =
      (List.enum (chunkStarts seg.length 800)).map
        (fun p =>
          mkChunk source (0 + p.1)
            ((seg.drop p.2).take (min (p.2 + 1000) seg.length - p.2))
            (0 + p.2) (0 + min (p.2 + 1000) seg.length)) := by
    simp [createChunks, hnotle]
  have hspan : (createChunks 1000 200 [seg] source).map
      (fun c => (c.meta.charStart, c.meta.charEnd)) =
      (chunkStarts seg.length 800).map
        (fun st => (st, min (st + 1000) seg.length)) := by
    rw [hcs, List.map_map]
    have hmap := map_enumFrom_snd
      (fun st => ((st : ℕ), min (st + 1000) seg.length))
      (chunkStarts seg.length 800) 0
    rw [List.enum_eq_enumFrom]
    rw [show ((fun c : Chunk => (c.meta.charStart, c.meta.charEnd)) ∘
        (fun p : ℕ × ℕ =>
          mkChunk source (0 + p.1)
            ((seg.drop p.2).take (min (p.2 + 1000) seg.length - p.2))
            (0 + p.2) (0 + min (p.2 + 1000) seg.length))) =
      (fun p : ℕ × ℕ => ((p.2 : ℕ), min (p.2 + 1000) seg.length)) from by
        funext p
        simp [mkChunk]]
    exact hmap
  have hlen : (createChunks 1000 200 [seg] source).length =
      (seg.length + 799) / 800 := by
    have hlen' := congrArg List.length hspan
    simpa [chunkStarts_length] using hlen'
  have hget : ∀ j : ℕ, ∀ hj : j < (createChunks 1000 200 [seg] source).length,
      ((createChunks 1000 200 [seg] source).get ⟨j, hj⟩).meta.charStart =
        j * 800 ∧
      ((createChunks 1000 200 [seg] source).get ⟨j, hj⟩).meta.charEnd =
        min (j * 800 + 1000) seg.length := by
    intro j hj
    have hj' : j < (List.enum (chunkStarts seg.length 800)).length := by
      rw [hcs] at hj
      simpa using hj
    have hjs : j < (chunkStarts seg.length 800).length := by
      simpa using hj'
    have hstart : (chunkStarts seg.length 800)[j] = j * 800 := by
      simp [chunkStarts, List.getElem_map, List.getElem_range]
    have hgetelem : (createChunks 1000 200 [seg] source).get ⟨j, hj⟩ =
        mkChunk source (0 + j)
          ((seg.drop (j * 800)).take (min (j * 800 + 1000) seg.length - j * 800))
          (0 + j * 800) (0 + min (j * 800 + 1000) seg.length) := by
      rw [List.get_eq_getElem]
      conv in (createChunks 1000 200 [seg] source) => rw [hcs]
      rw [List.getElem_map, List.getElem_enum, hstart]
    rw [hgetelem]
    constructor <;> simp [mkChunk]
  refine ⟨hspan, hlen, ?_⟩
  intro i h
  have hi : i < (createChunks 1000 200 [seg] source).length := by omega
  have hstartlt : ∀ j : ℕ, j < (createChunks 1000 200 [seg] source).length →
      j * 800 < seg.length := by
    intro j hj
    rw [hlen] at hj
    omega
  obtain ⟨hs1, he1⟩ := hget (i + 1) h
  obtain ⟨hs0, he0⟩ := hget i hi
  have hlt1 : (i + 1) * 800 < seg.length :=
    hstartlt (i + 1) h
  refine ⟨hs1, he0, ?_, ?_, ?_⟩
  · rw [he0, hs1]
    omega
  · rw [he0, hs1]
    omega
  · intro h2
    have hlt2 : (i + 2) * 800 < seg.length := hstartlt (i + 2) h2
    rw [he0, hs1]
    omega

set_option maxRecDepth 100000 in
/-- Witness for `createChunks_window_overlaps`: on a 1700-character
segment, the first pair of windows overlaps by exactly 200. -/
theorem createChunks_window_overlaps_witness :
    ((createChunks 1000 200 [List.replicate 1700 'a'] "doc".toList).get
        ⟨0, by decide⟩).meta.charEnd -
      ((createChunks 1000 200 [List.replicate 1700 'a'] "doc".toList).get
        ⟨1, by decide⟩).meta.charStart = 200 := by
  have hT := createChunks_window_overlaps (List.replicate 1700 'a')
    "doc".toList (by simp)
  have hlen : (createChunks 1000 200 [List.replicate 1700 'a']
      "doc".toList).length = 3 := by
    rw [hT.2.1]
    simp
  obtain ⟨hs1, he0, hov, hpos, hfull⟩ := hT.2.2 0 (by omega)
  exact hfull (by omega)

set_option maxRecDepth 100000 in
/-- **C5**, counterexample to the claim as stated: on a 1700-character
segment the spans are `(0,1000), (800,1700), (1600,1700)`, and the final
consecutive pair overlaps by `1700 - 1600 = 100`, not 200. -/
theorem createChunks_window_overlaps_counterexample :
    (createChunks 1000 200 [List.replicate 1700 'a'] "doc".toList).map
        (fun c => (c.meta.charStart, c.meta.charEnd)) =
      [(0, 1000), (800, 1700), (1600, 1700)] ∧
    ¬ List.Chain' (fun a b : ℕ × ℕ => a.2 - b.1 = 200)
      [(0, 1000), (800, 1700), (1600, 1700)] := by
  constructor
  · decide
  · simp [List.chain'_cons]

/-- The SSE event tags of the streaming route. -/
inductive EvType
  | connected
  | progress
  | chunk
  | analysis
  | complete
  | error
deriving Repr, DecidableEq

/-- Outcome of one provider streaming call
(`openai.chat.completions.create({..., stream: true})`): a failure at the
call itself, or a stream that delivers the given content deltas and then
either finishes normally or throws mid-stream. -/
inductive StreamOutcome
  | createFail
  | streamed (chunksDelivered : List Str) (midFail : Bool)

/-- A falsy query-parameter value: absent (`null`) or the empty string. -/
def isFalsyStr : Option Str → Bool
  | none => true
  | some s => s.isEmpty

/-- The chunk/progress events of `streamContractAnalysis`'s delta loop:
empty deltas are skipped; every 10th non-empty delta adds a progress
event after its chunk event. -/
def analyzeChunkEvents : List Str → ℕ → List EvType
  | [], _ => []
  | c :: cs, count =>
      if c.isEmpty then analyzeChunkEvents cs count
      else
        .chunk :: ((if (count + 1) % 10 == 0 then [.progress] else []) ++
          analyzeChunkEvents cs (count + 1))

/-- The delta loop of `streamChatResponse`/`streamSummary`: one chunk
event per non-empty delta. -/
def plainChunkEvents : List Str → List EvType
  | [] => []
  | c :: cs =>
      if c.isEmpty then plainChunkEvents cs else .chunk :: plainChunkEvents cs

/-- `streamContractAnalysis`: progress(10); on a successful create,
progress(30), the delta loop, one analysis event, then complete.  The
boolean records whether the function threw (re-wrapped provider error). -/
def analyzeHandler : StreamOutcome → List EvType × Bool
  | .createFail => ([.progress], true)
  | .streamed cs f =>
      ([.progress, .progress] ++ analyzeChunkEvents cs 0 ++
        (if f then [] else [.analysis, .complete]), f)

/-- `streamChatResponse`: progress(20), delta chunks, then complete. -/
def chatHandler : StreamOutcome → List EvType × Bool
  | .createFail => ([.progress], true)
  | .streamed cs f =>
      ([.progress] ++ plainChunkEvents cs ++ (if f then [] else [.complete]), f)

/-- `streamSummary`: progress(15), delta chunks, then complete. -/
def summarizeHandler : StreamOutcome → List EvType × Bool
  | .createFail => ([.progress], true)
  | .streamed cs f =>
      ([.progress] ++ plainChunkEvents cs ++ (if f then [] else [.complete]), f)

/-- The event loop body of `streamMockAnalysis`: one chunk event per
scripted piece (without an emptiness check), plus a progress event after
every piece whose index is divisible by 5. -/
def mockBody : List Str → ℕ → List EvType
  | [], _ => []
  | _ :: cs, i =>
      .chunk :: ((if i % 5 == 0 then [.progress] else []) ++ mockBody cs (i + 1))

/-- `streamMockAnalysis`: the scripted chunk/progress events followed by a
single complete event; this path never throws. -/
def mockEvents (pieces : List Str) : List EvType :=
  mockBody pieces 0 ++ [.complete]

/-- The mode switch of the route (`mode || 'analyze'`; `chat` and
`summarize` have their own handlers, anything else falls through to
contract analysis). -/
def handlerFor (mode : Option Str) : StreamOutcome → List EvType × Bool :=
  if isFalsyStr mode then analyzeHandler
  else if mode = some "chat".toList then chatHandler
  else if mode = some "summarize".toList then summarizeHandler
  else analyzeHandler

/-- The ordered event-type sequence of one `GET /api/ai/stream` request:
`connected` first; a validation failure (`!prompt && !caseId`) emits
`error` and closes the stream; without an API key the scripted mock path
runs; otherwise the mode handler runs, and a thrown provider error is
caught and reported as a single `error` event before the stream closes. -/
def getEvents (prompt caseId mode : Option Str) (apiKey : Bool)
    (outcome : StreamOutcome) (mockPieces : List Str) : List EvType :=
  .connected ::
    (if isFalsyStr prompt && isFalsyStr caseId then [.error]
     else if !apiKey then mockEvents mockPieces
     else
       (handlerFor mode outcome).1 ++
         (if (handlerFor mode outcome).2 then [.error] else []))

/-- The terminal event the route actually produces, by case (this is the
corrected description the amended claim asserts). -/
def lastEventOf (prompt caseId : Option Str) (apiKey : Bool)
    (outcome : StreamOutcome) : EvType :=
  if isFalsyStr prompt && isFalsyStr caseId then .error
  else if !apiKey then .complete
  else
    match outcome with
    | .createFail => .error
    | .streamed _ f => if f then .error else .complete

theorem getLast?_cons_append_last {α : Type} (a x : α) (l : List α) :
    (a :: (l ++ [x])).getLast? = some x := by
  rw [show a :: (l ++ [x]) = (a :: l) ++ [x] from rfl]
  exact List.getLast?_concat _

theorem handlerFor_head (mode : Option Str) (o : StreamOutcome) :
    ((handlerFor mode o).1).head? = some .progress := by
  unfold handlerFor
  split_ifs <;> cases o <;> rfl

theorem handlerFor_createFail (mode : Option Str) :
    handlerFor mode .createFail = ([.progress], true) := by
  unfold handlerFor
  split_ifs <;> rfl

theorem handlerFor_snd (mode : Option Str) (cs : List Str) (f : Bool) :
    (handlerFor mode (.streamed cs f)).2 = f := by
  unfold handlerFor
  split_ifs <;> rfl

theorem handlerFor_success_shape (mode : Option Str) (cs : List Str) :
    ∃ Y, (handlerFor mode (.streamed cs false)).1 = Y ++ [.complete] := by
  unfold handlerFor
  split_ifs
  · exact ⟨[.progress, .progress] ++ analyzeChunkEvents cs 0 ++ [.analysis],
      by simp [analyzeHandler]⟩
  · exact ⟨[.progress] ++ plainChunkEvents cs, by simp [chatHandler]⟩
  · exact ⟨[.progress] ++ plainChunkEvents cs, by simp [summarizeHandler]⟩
  · exact ⟨[.progress, .progress] ++ analyzeChunkEvents cs 0 ++ [.analysis],
      by simp [analyzeHandler]⟩

/-- **C1** (corrected).  Every session starts with `connected`, but the
sequence does not always end in `complete`: on validation failure it is
exactly `connected, error` (no trailing `complete`), and on provider
failure it ends with `error`; `complete` terminates only the mock path and
successful provider paths. -/
theorem getEvents_terminal (prompt caseId mode : Option Str) (apiKey : Bool)
    (outcome : StreamOutcome) (mockPieces : List Str) :
    (getEvents prompt caseId mode apiKey outcome mockPieces).head? =
      some .connected ∧
    (getEvents prompt caseId mode apiKey outcome mockPieces).getLast? =
      some (lastEventOf prompt caseId apiKey outcome) ∧
    (getEvents prompt caseId mode apiKey outcome mockPieces =
        [.connected, .error] ↔
      (isFalsyStr prompt && isFalsyStr caseId) = true) := by
  refine ⟨rfl, ?_, ?_⟩
  · by_cases hval : (isFalsyStr prompt && isFalsyStr caseId) = true
    · simp [getEvents, lastEventOf, hval]
    · cases hapi : apiKey with
      | false =>
          simp only [getEvents, lastEventOf, hval, if_neg hval, Bool.not_false,
            if_pos, mockEvents]
          simp [getLast?_cons_append_last, hval]
      | true =>
          cases outcome with
          | createFail =>
              simp only [getEvents, lastEventOf, if_neg hval,
                handlerFor_createFail, Bool.not_true]
              simp [getLast?_cons_append_last (l := [EvType.progress]), hval]
          | streamed cs f =>
              cases f with
              | true =>
                  simp only [getEvents, lastEventOf, if_neg hval,
                    handlerFor_snd, Bool.not_true, if_true]
                  simp only [if_neg (by simp : ¬ (false = true)),
                    if_pos rfl]
                  simp [getLast?_cons_append_last, hval]
              | false =>
                  obtain ⟨Y, hY⟩ := handlerFor_success_shape mode cs
                  simp only [getEvents, lastEventOf, if_neg hval,
                    handlerFor_snd, hY, Bool.not_true]
                  simp [getLast?_cons_append_last, hval]
  · constructor
    · intro heq
      by_cases hval : (isFalsyStr prompt && isFalsyStr caseId) = true
      · exact hval
      · exfalso
        cases hapi : apiKey with
        | false =>
            rw [hapi] at heq
            simp only [getEvents, if_neg hval, Bool.not_false, if_pos,
              mockEvents] at heq
            have htail := (List.cons.injEq _ _ _ _).mp heq |>.2
            have hlast := congrArg List.getLast? htail
            rw [List.getLast?_concat] at hlast
            simp at hlast
        | true =>
            rw [hapi] at heq
            simp only [getEvents, if_neg hval, Bool.not_true] at heq
            have htail := (List.cons.injEq _ _ _ _).mp heq |>.2
            have hhead := congrArg List.head? htail
            have hh := handlerFor_head mode outcome
            rcases hl : (handlerFor mode outcome).1 with _ | ⟨e, rest⟩
            · rw [hl] at hh
              simp at hh
            · rw [hl] at hh
              simp only [List.head?_cons, Option.some.injEq] at hh
              rw [hl, hh] at hhead
              simp at hhead
    · intro hval
      simp [getEvents, hval]

/-- **C1**, counterexample to the claim as stated: with neither prompt nor
case reference the session emits exactly `connected, error` — there is no
trailing `complete` event, so the sequence does not end in `complete`. -/
theorem getEvents_terminal_counterexample :
    getEvents none none none true .createFail [] =
      [.connected, .error] ∧
    (getEvents none none none true .createFail []).getLast? ≠
      some .complete := by
  constructor
  · rfl
  · decide

end DocuIntel
